import Mathlib

/-!
Verification of the str-list packed string-list encoding.

A `StrList` packs an ordered sequence of UTF-8 strings into one contiguous
byte buffer: each element is its raw bytes followed by a single reserved
separator byte `DELIMITER = 0xff`, a value that never occurs in valid UTF-8.
We model byte buffers as `List Nat` and strings as their UTF-8 byte lists
(in which the byte `0xff` never occurs).  The definitions below are shallow
embeddings of the functions in `src/lib.rs`; theorems about them settle the
specification's claims.
-/

namespace StrListSpec

/-- The reserved separator byte (`const DELIMITER: u8 = 0xff`). -/
def DELIMITER : Nat := 255

/-- Index of the first delimiter byte, if any
(`self.inner.iter().position(|&b| b == DELIMITER)`). -/
def position : List Nat → Option Nat
  | [] => none
  | b :: rest =>
    if b = DELIMITER then some 0 else (position rest).map (· + 1)

/-- Index of the last delimiter byte, if any
(`inner.iter().rposition(|&b| b == DELIMITER)`). -/
def rposition : List Nat → Option Nat
  | [] => none
  | b :: rest =>
    match rposition rest with
    | some i => some (i + 1)
    | none => if b = DELIMITER then some 0 else none

/-- `StrList::split_first`: locate the first delimiter by forward scan and
return the bytes before it together with everything after it (delimiter
excluded); `none` when no delimiter is present. -/
def split_first (l : List Nat) : Option (List Nat × List Nat) :=
  (position l).map fun i => (l.take i, l.drop (i + 1))

/-- Start index of the last element inside the bytes with the trailing
delimiter removed (`rposition ... .map_or(0, |i| i + 1)`). -/
def lastStart (inner : List Nat) : Nat :=
  match rposition inner with
  | some i => i + 1
  | none => 0

/-- `StrList::split_last`: on a non-empty buffer, drop the trailing byte,
scan backward for the previous delimiter, and return everything after that
point as the last string together with everything before it; `none` on the
empty buffer. -/
def split_last (l : List Nat) : Option (List Nat × List Nat) :=
  match l with
  | [] => none
  | _ :: _ =>
    some (l.dropLast.drop (lastStart l.dropLast),
          l.dropLast.take (lastStart l.dropLast))

/-- `StrListBuf::push`: append the value's bytes, then the delimiter. -/
def push (buf : List Nat) (v : List Nat) : List Nat :=
  buf ++ v ++ [DELIMITER]

/-- `StrListBuf::pop`: split off the last element and truncate storage to
the remaining view's length; returns the new buffer and whether an element
was removed. -/
def pop (buf : List Nat) : List Nat × Bool :=
  match split_last buf with
  | some (_, rest) => (buf.take rest.length, true)
  | none => (buf, false)

/-- `StrListBuf::clear`. -/
def clear (_buf : List Nat) : List Nat := []

/-- `StrListBuf::is_empty`: true iff the underlying byte buffer is empty. -/
def is_empty (buf : List Nat) : Bool := buf.isEmpty

theorem split_first_length_lt {l : List Nat} {s rest : List Nat}
    (h : split_first l = some (s, rest)) : rest.length < l.length := by
  cases l with
  | nil => simp [split_first, position] at h
  | cons a t =>
    cases hp : position (a :: t) with
    | none => simp [split_first, hp] at h
    | some i =>
      simp [split_first, hp] at h
      obtain ⟨h1, h2⟩ := h
      subst h2
      simp [List.length_drop]
      omega

theorem split_last_length_lt {l : List Nat} {s rest : List Nat}
    (h : split_last l = some (s, rest)) : rest.length < l.length := by
  cases l with
  | nil => simp [split_last] at h
  | cons a t =>
    simp [split_last] at h
    obtain ⟨h1, h2⟩ := h
    subst h2
    simp [List.length_take, List.length_dropLast]

/-- Forward iteration (`Iter::next` repeated until exhaustion): the sequence
of elements obtained by repeatedly applying `split_first`. -/
def toListFwd (l : List Nat) : List (List Nat) :=
  match h : split_first l with
  | none => []
  | some (s, rest) => s :: toListFwd rest
termination_by l.length
decreasing_by exact split_first_length_lt h

/-- Backward iteration (`Iter::next_back` repeated until exhaustion): the
sequence of elements obtained by repeatedly applying `split_last`. -/
def toListBwd (l : List Nat) : List (List Nat) :=
  match h : split_last l with
  | none => []
  | some (s, rest) => s :: toListBwd rest
termination_by l.length
decreasing_by exact split_last_length_lt h

/-- Comparison of two bytes (`u8::cmp`). -/
def cmpByte (a b : Nat) : Ordering :=
  if a < b then .lt else if a = b then .eq else .gt

/-- Lexicographic comparison of two byte strings (`str::cmp`, which compares
the underlying UTF-8 bytes lexicographically). -/
def cmpBytes : List Nat → List Nat → Ordering
  | [], [] => .eq
  | [], _ :: _ => .lt
  | _ :: _, [] => .gt
  | a :: x, b :: y =>
    match cmpByte a b with
    | .eq => cmpBytes x y
    | o => o

/-- Lexicographic comparison of two element sequences (`Iterator::cmp` with
`str::cmp` on the elements). -/
def cmpSeq : List (List Nat) → List (List Nat) → Ordering
  | [], [] => .eq
  | [], _ :: _ => .lt
  | _ :: _, [] => .gt
  | a :: x, b :: y =>
    match cmpBytes a b with
    | .eq => cmpSeq x y
    | o => o

/-- `impl Ord for StrList` / `StrListBuf`: `self.iter().cmp(other.iter())`. -/
def strListCmp (a b : List Nat) : Ordering :=
  cmpSeq (toListFwd a) (toListFwd b)

/-- Building a buffer by pushing each element in order into an empty buffer
(`FromIterator` / `Extend`, which loop over `push`). -/
def fromStrings (ss : List (List Nat)) : List Nat :=
  ss.foldl push []

/-- An element is a valid string when the delimiter byte does not occur in
it (true of every UTF-8 byte sequence, since `0xff` is not a UTF-8 byte). -/
abbrev ValidStr (s : List Nat) : Prop := DELIMITER ∉ s

/-- Every element of the sequence is a valid string. -/
abbrev ValidElems (ss : List (List Nat)) : Prop := ∀ s ∈ ss, DELIMITER ∉ s

/-- The packed encoding of a sequence of elements: each element's bytes
followed by exactly one delimiter byte. -/
def fromElems : List (List Nat) → List Nat
  | [] => []
  | s :: rest => s ++ DELIMITER :: fromElems rest

/-- Well-formedness of a byte buffer: it is the packed encoding of some
sequence of valid strings (the encoding invariant of the spec). -/
def WF (l : List Nat) : Prop :=
  ∃ ss, ValidElems ss ∧ l = fromElems ss

theorem toListFwd_eq_nil {l : List Nat} (h : split_first l = none) :
    toListFwd l = [] := by
  conv_lhs => unfold toListFwd
  split <;> simp_all

theorem toListFwd_eq_cons {l s rest : List Nat}
    (h : split_first l = some (s, rest)) :
    toListFwd l = s :: toListFwd rest := by
  conv_lhs => unfold toListFwd
  split <;> simp_all

theorem toListBwd_eq_nil {l : List Nat} (h : split_last l = none) :
    toListBwd l = [] := by
  conv_lhs => unfold toListBwd
  split <;> simp_all

theorem toListBwd_eq_cons {l s rest : List Nat}
    (h : split_last l = some (s, rest)) :
    toListBwd l = s :: toListBwd rest := by
  conv_lhs => unfold toListBwd
  split <;> simp_all

theorem take_len_append (x y : List Nat) : (x ++ y).take x.length = x := by
  induction x with
  | nil => rfl
  | cons a t ih => simp [ih]

theorem drop_len_append (x y : List Nat) : (x ++ y).drop x.length = y := by
  induction x with
  | nil => rfl
  | cons a t ih => simp [ih]

theorem drop_len_succ_append (x : List Nat) (a : Nat) (y : List Nat) :
    (x ++ a :: y).drop (x.length + 1) = y := by
  induction x with
  | nil => rfl
  | cons b t ih => simpa using ih

theorem position_append {s : List Nat} (t : List Nat) (h : DELIMITER ∉ s) :
    position (s ++ DELIMITER :: t) = some s.length := by
  induction s with
  | nil => simp [position]
  | cons a u ih =>
    have ha : a ≠ DELIMITER := by
      intro hEq
      exact h (hEq ▸ List.mem_cons_self a u)
    have hu : DELIMITER ∉ u := fun hm => h (List.mem_cons_of_mem a hm)
    simp [position, ha, ih hu]

theorem rposition_eq_none {s : List Nat} (h : DELIMITER ∉ s) :
    rposition s = none := by
  induction s with
  | nil => rfl
  | cons a u ih =>
    have ha : a ≠ DELIMITER := by
      intro hEq
      exact h (hEq ▸ List.mem_cons_self a u)
    have hu : DELIMITER ∉ u := fun hm => h (List.mem_cons_of_mem a hm)
    simp [rposition, ih hu, ha]

theorem rposition_append {x y : List Nat} (h : rposition y = none) :
    rposition (x ++ y) = rposition x := by
  induction x with
  | nil => rw [List.nil_append, h]; rfl
  | cons a t ih => simp [rposition, ih]

theorem rposition_concat (x : List Nat) :
    rposition (x ++ [DELIMITER]) = some x.length := by
  induction x with
  | nil => rfl
  | cons a t ih => simp [rposition, ih]

theorem fromElems_append (a b : List (List Nat)) :
    fromElems (a ++ b) = fromElems a ++ fromElems b := by
  induction a with
  | nil => rfl
  | cons s t ih => simp [fromElems, ih]

theorem fromElems_eq_nil_iff {ss : List (List Nat)} :
    fromElems ss = [] ↔ ss = [] := by
  cases ss with
  | nil => simp [fromElems]
  | cons s t => simp [fromElems]

theorem fromElems_concat_delim {ss : List (List Nat)} (h : ss ≠ []) :
    ∃ y, fromElems ss = y ++ [DELIMITER] := by
  induction ss with
  | nil => exact absurd rfl h
  | cons s t ih =>
    cases t with
    | nil => exact ⟨s, rfl⟩
    | cons u v =>
      obtain ⟨y, hy⟩ := ih (by simp)
      refine ⟨s ++ DELIMITER :: y, ?_⟩
      show s ++ DELIMITER :: fromElems (u :: v) = (s ++ DELIMITER :: y) ++ [DELIMITER]
      rw [hy]
      simp

theorem split_first_fromElems {s : List Nat} (ss : List (List Nat))
    (h : DELIMITER ∉ s) :
    split_first (fromElems (s :: ss)) = some (s, fromElems ss) := by
  show split_first (s ++ DELIMITER :: fromElems ss) = _
  unfold split_first
  rw [position_append (fromElems ss) h]
  simp [take_len_append, drop_len_succ_append]

theorem split_last_of_ne_nil {l : List Nat} (h : l ≠ []) :
    split_last l =
      some (l.dropLast.drop (lastStart l.dropLast),
            l.dropLast.take (lastStart l.dropLast)) := by
  cases l with
  | nil => exact absurd rfl h
  | cons a t => rfl

theorem split_last_fromElems (ss : List (List Nat)) (s : List Nat)
    (hs : DELIMITER ∉ s) :
    split_last (fromElems (ss ++ [s])) = some (s, fromElems ss) := by
  have hl : fromElems (ss ++ [s]) = (fromElems ss ++ s) ++ [DELIMITER] := by
    rw [fromElems_append]
    show fromElems ss ++ (s ++ DELIMITER :: fromElems []) = _
    simp [fromElems]
  have hne : fromElems (ss ++ [s]) ≠ [] := by
    rw [hl]; simp
  rw [split_last_of_ne_nil hne, hl, List.dropLast_concat]
  cases hss : ss with
  | nil =>
    have h0 : lastStart s = 0 := by
      simp [lastStart, rposition_eq_none hs]
    simp [h0, fromElems]
  | cons u v =>
    obtain ⟨y, hy⟩ := @fromElems_concat_delim (u :: v) (by simp)
    have hr : rposition (fromElems (u :: v) ++ s) = some y.length := by
      rw [rposition_append (rposition_eq_none hs), hy, rposition_concat]
    have hlen : y.length + 1 = (fromElems (u :: v)).length := by
      rw [hy]; simp
    have h0 : lastStart (fromElems (u :: v) ++ s) = (fromElems (u :: v)).length := by
      simp [lastStart, hr, hlen]
    rw [h0, drop_len_append, take_len_append]

theorem toListFwd_fromElems {ss : List (List Nat)} (h : ValidElems ss) :
    toListFwd (fromElems ss) = ss := by
  induction ss with
  | nil => exact toListFwd_eq_nil rfl
  | cons s t ih =>
    have h1 : DELIMITER ∉ s := h s (List.mem_cons_self s t)
    have h2 : ValidElems t := fun u hu => h u (List.mem_cons_of_mem s hu)
    rw [toListFwd_eq_cons (split_first_fromElems t h1), ih h2]

theorem toListBwd_fromElems {ss : List (List Nat)} (h : ValidElems ss) :
    toListBwd (fromElems ss) = ss.reverse := by
  induction ss using List.reverseRecOn with
  | nil => exact toListBwd_eq_nil rfl
  | append_singleton t s ih =>
    have h1 : DELIMITER ∉ s := h s (by simp)
    have h2 : ValidElems t := fun u hu => h u (by simp [hu])
    rw [toListBwd_eq_cons (split_last_fromElems t s h1), ih h2]
    simp

theorem foldl_push_eq (ss : List (List Nat)) :
    ∀ b : List Nat, ss.foldl push b = b ++ fromElems ss := by
  induction ss with
  | nil => intro b; simp [fromElems]
  | cons s t ih =>
    intro b
    show t.foldl push (push b s) = b ++ fromElems (s :: t)
    rw [ih (push b s)]
    simp [push, fromElems]

theorem fromStrings_eq (ss : List (List Nat)) :
    fromStrings ss = fromElems ss := by
  simpa using foldl_push_eq ss []

theorem WF_nil : WF [] :=
  ⟨[], fun s hs => absurd hs (List.not_mem_nil s), rfl⟩

theorem push_fromElems (ss : List (List Nat)) (s : List Nat) :
    push (fromElems ss) s = fromElems (ss ++ [s]) := by
  rw [fromElems_append]
  show fromElems ss ++ s ++ [DELIMITER] = fromElems ss ++ (s ++ DELIMITER :: fromElems [])
  simp [fromElems]

theorem WF_push {b s : List Nat} (h : WF b) (hs : DELIMITER ∉ s) :
    WF (push b s) := by
  obtain ⟨ss, hv, rfl⟩ := h
  refine ⟨ss ++ [s], ?_, push_fromElems ss s⟩
  intro u hu
  rcases List.mem_append.mp hu with hu | hu
  · exact hv u hu
  · simp at hu
    exact hu ▸ hs

theorem WF_ne_nil_decomp {l : List Nat} (h : WF l) (hne : l ≠ []) :
    ∃ ss s, ValidElems ss ∧ DELIMITER ∉ s ∧ l = fromElems (ss ++ [s]) := by
  obtain ⟨ts, hv, rfl⟩ := h
  rcases List.eq_nil_or_concat ts with rfl | ⟨ss, s, hcat⟩
  · exact absurd rfl hne
  · rw [List.concat_eq_append] at hcat
    subst hcat
    refine ⟨ss, s, fun u hu => hv u (List.mem_append_left _ hu), ?_, rfl⟩
    exact hv s (List.mem_append_right _ (List.mem_singleton.mpr rfl))

theorem pop_nil : pop [] = ([], false) := rfl

theorem pop_fromElems_concat (ss : List (List Nat)) (s : List Nat)
    (hs : DELIMITER ∉ s) :
    pop (fromElems (ss ++ [s])) = (fromElems ss, true) := by
  have hl : fromElems (ss ++ [s]) = fromElems ss ++ (s ++ DELIMITER :: fromElems []) :=
    fromElems_append ss [s]
  have ht : (fromElems (ss ++ [s])).take (fromElems ss).length = fromElems ss := by
    rw [hl, take_len_append]
  simp [pop, split_last_fromElems ss s hs, ht]

theorem WF_pop {b : List Nat} (h : WF b) : WF (pop b).1 := by
  by_cases hne : b = []
  · subst hne
    rw [pop_nil]
    exact WF_nil
  · obtain ⟨ss, s, hv, hs, rfl⟩ := WF_ne_nil_decomp h hne
    rw [pop_fromElems_concat ss s hs]
    exact ⟨ss, hv, rfl⟩

theorem WF_clear (b : List Nat) : WF (clear b) := WF_nil

theorem WF_foldl_push {b : List Nat} {ss : List (List Nat)}
    (h : WF b) (hv : ValidElems ss) : WF (ss.foldl push b) := by
  induction ss generalizing b with
  | nil => exact h
  | cons s t ih =>
    exact ih (WF_push h (hv s (List.mem_cons_self s t)))
      (fun u hu => hv u (List.mem_cons_of_mem s hu))

theorem WF_fromStrings {ss : List (List Nat)} (hv : ValidElems ss) :
    WF (fromStrings ss) := WF_foldl_push WF_nil hv

theorem WF_eq_nil_iff {l : List Nat} (h : WF l) :
    l = [] ↔ toListFwd l = [] := by
  obtain ⟨ss, hv, rfl⟩ := h
  rw [toListFwd_fromElems hv, fromElems_eq_nil_iff]

theorem WF_getLast {l : List Nat} (h : WF l) (hne : l ≠ []) :
    l.getLast? = some DELIMITER := by
  obtain ⟨ss, hv, rfl⟩ := h
  have hss : ss ≠ [] := by
    intro hEq
    exact hne (by simp [hEq, fromElems])
  obtain ⟨y, hy⟩ := fromElems_concat_delim hss
  rw [hy]
  simp

theorem count_fromElems {ss : List (List Nat)} (hv : ValidElems ss) :
    (fromElems ss).count DELIMITER = ss.length := by
  induction ss with
  | nil => rfl
  | cons s t ih =>
    have h1 : DELIMITER ∉ s := hv s (List.mem_cons_self s t)
    have h2 : ValidElems t := fun u hu => hv u (List.mem_cons_of_mem s hu)
    show (s ++ DELIMITER :: fromElems t).count DELIMITER = t.length + 1
    rw [List.count_append, List.count_cons_self, ih h2,
      List.count_eq_zero.mpr h1]
    omega

theorem WF_count {l : List Nat} (h : WF l) :
    l.count DELIMITER = (toListFwd l).length := by
  obtain ⟨ss, hv, rfl⟩ := h
  rw [toListFwd_fromElems hv, count_fromElems hv]

theorem toListFwd_push {b s : List Nat} (h : WF b) (hs : DELIMITER ∉ s) :
    toListFwd (push b s) = toListFwd b ++ [s] := by
  obtain ⟨ss, hv, rfl⟩ := h
  have hv2 : ValidElems (ss ++ [s]) := by
    intro u hu
    rcases List.mem_append.mp hu with hu | hu
    · exact hv u hu
    · simp at hu
      exact hu ▸ hs
  rw [push_fromElems, toListFwd_fromElems hv2, toListFwd_fromElems hv]

theorem pop_of_wf_ne_nil {b : List Nat} (h : WF b) (hne : b ≠ []) :
    (pop b).2 = true ∧ toListFwd (pop b).1 = (toListFwd b).dropLast := by
  obtain ⟨ss, s, hvss, hs, rfl⟩ := WF_ne_nil_decomp h hne
  have hvall : ValidElems (ss ++ [s]) := by
    intro u hu
    rcases List.mem_append.mp hu with hu | hu
    · exact hvss u hu
    · simp at hu
      exact hu ▸ hs
  rw [pop_fromElems_concat ss s hs]
  refine ⟨rfl, ?_⟩
  rw [toListFwd_fromElems hvss, toListFwd_fromElems hvall,
    List.dropLast_concat]

/-- A mutation operation on the owned buffer (`StrListBuf`). -/
inductive Op where
  | push (s : List Nat)
  | pop
  | clear
  | extend (ss : List (List Nat))

/-- Apply one mutation operation to the buffer (`Extend::extend` loops over
`push`). -/
def applyOp (buf : List Nat) : Op → List Nat
  | .push s => push buf s
  | .pop => (pop buf).1
  | .clear => clear buf
  | .extend ss => ss.foldl push buf

/-- Run a sequence of mutation operations starting from the empty buffer
(`StrListBuf::new()` and `with_capacity` both start with empty contents). -/
def run (ops : List Op) : List Nat := ops.foldl applyOp []

/-- The strings fed to an operation are valid (delimiter-free), as is every
`&str` in Rust. -/
def ValidOp : Op → Prop
  | .push s => DELIMITER ∉ s
  | .pop => True
  | .clear => True
  | .extend ss => ValidElems ss

theorem WF_applyOp {b : List Nat} {op : Op} (h : WF b) (hop : ValidOp op) :
    WF (applyOp b op) := by
  cases op with
  | push s => exact WF_push h hop
  | pop => exact WF_pop h
  | clear => exact WF_clear b
  | extend ss => exact WF_foldl_push h hop

theorem WF_run_aux {b : List Nat} (ops : List Op) (h : WF b)
    (hops : ∀ op ∈ ops, ValidOp op) : WF (ops.foldl applyOp b) := by
  induction ops generalizing b with
  | nil => exact h
  | cons op rest ih =>
    exact ih (WF_applyOp h (hops op (List.mem_cons_self op rest)))
      (fun o ho => hops o (List.mem_cons_of_mem op ho))

theorem WF_run (ops : List Op) (hops : ∀ op ∈ ops, ValidOp op) :
    WF (run ops) := WF_run_aux ops WF_nil hops

/-- A push-or-pop operation, for the length/count invariant. -/
inductive PPOp where
  | push (s : List Nat)
  | pop

/-- Step of the instrumented run: apply the operation and count pushes and
successful pops (pops that returned `true`). -/
def ppStep : List Nat × Nat × Nat → PPOp → List Nat × Nat × Nat
  | (buf, p, q), .push s => (push buf s, p + 1, q)
  | (buf, p, q), .pop => ((pop buf).1, p, if (pop buf).2 then q + 1 else q)

/-- Run a sequence of pushes and pops from the empty buffer, returning the
final buffer, the number of pushes, and the number of successful pops. -/
def runPP (ops : List PPOp) : List Nat × Nat × Nat :=
  ops.foldl ppStep ([], 0, 0)

/-- The string fed to a push is valid (delimiter-free). -/
def ValidPPOp : PPOp → Prop
  | .push s => DELIMITER ∉ s
  | .pop => True

/-- Invariant of the instrumented run: the buffer is well-formed and its
element count is pushes minus successful pops. -/
def PPInv (st : List Nat × Nat × Nat) : Prop :=
  WF st.1 ∧ st.2.2 ≤ st.2.1 ∧ (toListFwd st.1).length = st.2.1 - st.2.2

theorem PPInv_step {buf : List Nat} {p q : Nat} {op : PPOp}
    (h : PPInv (buf, p, q)) (hop : ValidPPOp op) :
    PPInv (ppStep (buf, p, q) op) := by
  obtain ⟨hwf0, hle0, hlen0⟩ := h
  have hwf : WF buf := hwf0
  have hle : q ≤ p := hle0
  have hlen : (toListFwd buf).length = p - q := hlen0
  cases op with
  | push s =>
    show PPInv (push buf s, p + 1, q)
    refine ⟨WF_push hwf hop, ?_, ?_⟩
    · show q ≤ p + 1
      omega
    · show (toListFwd (push buf s)).length = p + 1 - q
      rw [toListFwd_push hwf hop, List.length_append]
      simp only [List.length_singleton]
      omega
  | pop =>
    show PPInv ((pop buf).1, p, if (pop buf).2 then q + 1 else q)
    by_cases hne : buf = []
    · subst hne
      rw [pop_nil]
      exact ⟨hwf, hle, by rw [@toListFwd_eq_nil [] rfl] at hlen ⊢; exact hlen⟩
    · obtain ⟨htrue, hdrop⟩ := pop_of_wf_ne_nil hwf hne
      have hpos : (toListFwd buf).length ≠ 0 := fun h0 =>
        hne ((WF_eq_nil_iff hwf).mpr (List.length_eq_zero.mp h0))
      rw [htrue]
      refine ⟨WF_pop hwf, ?_, ?_⟩
      · show q + 1 ≤ p
        omega
      · show (toListFwd (pop buf).1).length = p - (q + 1)
        rw [hdrop, List.length_dropLast]
        omega

theorem PPInv_foldl {st : List Nat × Nat × Nat} (ops : List PPOp)
    (h : PPInv st) (hops : ∀ op ∈ ops, ValidPPOp op) :
    PPInv (ops.foldl ppStep st) := by
  induction ops generalizing st with
  | nil => exact h
  | cons op rest ih =>
    obtain ⟨buf, p, q⟩ := st
    exact ih (PPInv_step h (hops op (List.mem_cons_self op rest)))
      (fun o ho => hops o (List.mem_cons_of_mem op ho))

theorem PPInv_runPP (ops : List PPOp) (hops : ∀ op ∈ ops, ValidPPOp op) :
    PPInv (runPP ops) :=
  PPInv_foldl ops
    ⟨WF_nil, Nat.le_refl 0, by rw [@toListFwd_eq_nil [] rfl]; rfl⟩ hops

theorem cmpByte_self (a : Nat) : cmpByte a a = .eq := by
  simp [cmpByte]

theorem cmpBytes_self (x : List Nat) : cmpBytes x x = .eq := by
  induction x with
  | nil => rfl
  | cons a t ih => simp [cmpBytes, cmpByte_self, ih]

theorem cmpSeq_append_ne_nil (ss ts : List (List Nat)) (h : ts ≠ []) :
    cmpSeq ss (ss ++ ts) = .lt := by
  induction ss with
  | nil =>
    cases ts with
    | nil => exact absurd rfl h
    | cons t u => rfl
  | cons s u ih => simp [cmpSeq, cmpBytes_self, ih]

theorem is_empty_eq_false_iff (l : List Nat) : is_empty l = false ↔ l ≠ [] := by
  cases l <;> simp [is_empty]

theorem WF_is_empty_iff {l : List Nat} (h : WF l) :
    is_empty l = false ↔ (toListFwd l).length ≠ 0 := by
  rw [is_empty_eq_false_iff]
  constructor
  · intro hne h0
    exact hne ((WF_eq_nil_iff h).mpr (List.length_eq_zero.mp h0))
  · intro hlen hnil
    exact hlen (by simp [(WF_eq_nil_iff h).mp hnil])

/-- Claim C1: pushing a finite ordered sequence of delimiter-free strings in
order into an empty owned buffer and iterating the result forward yields
back exactly that sequence; iterating backward yields its reverse. -/
theorem c1_round_trip (ss : List (List Nat)) (h : ValidElems ss) :
    toListFwd (fromStrings ss) = ss ∧
    toListBwd (fromStrings ss) = ss.reverse := by
  rw [fromStrings_eq]
  exact ⟨toListFwd_fromElems h, toListBwd_fromElems h⟩

theorem c1_round_trip_witness :
    toListFwd (fromStrings [[104, 105], [], [97]]) = [[104, 105], [], [97]] ∧
    toListBwd (fromStrings [[104, 105], [], [97]]) =
      List.reverse [[104, 105], [], [97]] :=
  c1_round_trip [[104, 105], [], [97]] (by decide)

/-- Claim C2: ordering of two lists is lexicographic over the element
sequence (first differing element decides, a strict prefix is smaller), not
byte-wise comparison of the packed buffers; the concrete cases of the spec
hold, and there is a concrete pair where the element-wise order differs
from the byte-wise order of the packed buffers. -/
theorem c2_ordering :
    (∀ ss ts, ValidElems ss → ValidElems ts →
      strListCmp (fromStrings ss) (fromStrings ts) = cmpSeq ss ts) ∧
    (∀ ss ts, ts ≠ [] → cmpSeq ss (ss ++ ts) = .lt) ∧
    strListCmp (fromStrings [[97], [98, 98]]) (fromStrings [[97], [99]]) = .lt ∧
    strListCmp (fromStrings [[97]]) (fromStrings [[97], [98]]) = .lt ∧
    strListCmp (fromStrings [[98]])
      (fromStrings [[97], [122, 122, 122, 122]]) = .gt ∧
    strListCmp (fromStrings [[97]]) (fromStrings [[97, 98]]) ≠
      cmpBytes (fromStrings [[97]]) (fromStrings [[97, 98]]) := by
  have key : ∀ ss ts, ValidElems ss → ValidElems ts →
      strListCmp (fromStrings ss) (fromStrings ts) = cmpSeq ss ts := by
    intro ss ts hss hts
    unfold strListCmp
    rw [fromStrings_eq, fromStrings_eq, toListFwd_fromElems hss,
      toListFwd_fromElems hts]
  refine ⟨key, cmpSeq_append_ne_nil, ?_, ?_, ?_, ?_⟩
  · rw [key _ _ (by decide) (by decide)]; decide
  · rw [key _ _ (by decide) (by decide)]; decide
  · rw [key _ _ (by decide) (by decide)]; decide
  · rw [key _ _ (by decide) (by decide)]; decide

theorem c2_ordering_witness :
    strListCmp (fromStrings [[97], [98]]) (fromStrings [[98]]) =
      cmpSeq [[97], [98]] [[98]] :=
  c2_ordering.1 [[97], [98]] [[98]] (by decide) (by decide)

/-- Claim C3: every sequence of new/with_capacity/push/pop/clear/extend
operations keeps the owned buffer well-formed (each element's bytes
followed by exactly one separator byte, whose value is 255); consequently
the empty buffer encodes the empty list, a non-empty buffer ends in the
separator, and the separator count equals the element count. -/
theorem c3_invariant (ops : List Op) (h : ∀ op ∈ ops, ValidOp op) :
    WF (run ops) ∧
    DELIMITER = 255 ∧
    (run ops = [] ↔ toListFwd (run ops) = []) ∧
    (run ops ≠ [] → (run ops).getLast? = some DELIMITER) ∧
    (run ops).count DELIMITER = (toListFwd (run ops)).length := by
  have hwf := WF_run ops h
  exact ⟨hwf, rfl, WF_eq_nil_iff hwf, WF_getLast hwf, WF_count hwf⟩

theorem c3_invariant_witness :
    WF (run [Op.push [97], Op.extend [[98], []], Op.pop, Op.push []]) ∧
    DELIMITER = 255 ∧
    (run [Op.push [97], Op.extend [[98], []], Op.pop, Op.push []] = [] ↔
      toListFwd (run [Op.push [97], Op.extend [[98], []], Op.pop,
        Op.push []]) = []) ∧
    (run [Op.push [97], Op.extend [[98], []], Op.pop, Op.push []] ≠ [] →
      (run [Op.push [97], Op.extend [[98], []], Op.pop,
        Op.push []]).getLast? = some DELIMITER) ∧
    (run [Op.push [97], Op.extend [[98], []], Op.pop,
      Op.push []]).count DELIMITER =
      (toListFwd (run [Op.push [97], Op.extend [[98], []], Op.pop,
        Op.push []])).length :=
  c3_invariant [Op.push [97], Op.extend [[98], []], Op.pop, Op.push []]
    (by
      intro op hop
      simp only [List.mem_cons, List.not_mem_nil, or_false] at hop
      rcases hop with rfl | rfl | rfl | rfl
      · show DELIMITER ∉ [97]
        decide
      · show ValidElems [[98], []]
        decide
      · trivial
      · show DELIMITER ∉ ([] : List Nat)
        decide)

/-- Claim C4: on a well-formed view, split_first returns none exactly when
the view is empty; on a well-formed non-empty view it succeeds, returning
the delimiter-free bytes before the first separator and the view over
everything after that separator. -/
theorem c4_split_first (l : List Nat) (h : WF l) :
    (split_first l = none ↔ l = []) ∧
    (∀ s rest, split_first l = some (s, rest) →
      l = s ++ DELIMITER :: rest ∧ DELIMITER ∉ s) := by
  obtain ⟨ss, hv, rfl⟩ := h
  cases ss with
  | nil =>
    refine ⟨by simp [fromElems, split_first, position], ?_⟩
    intro s rest hs
    simp [fromElems, split_first, position] at hs
  | cons s0 t =>
    have h0 : DELIMITER ∉ s0 := hv s0 (List.mem_cons_self s0 t)
    have hsf := split_first_fromElems t h0
    refine ⟨?_, ?_⟩
    · rw [hsf]
      simp [fromElems]
    · intro s rest hs
      rw [hsf] at hs
      have hse : s0 = s ∧ fromElems t = rest := by simpa using hs
      obtain ⟨rfl, rfl⟩ := hse
      exact ⟨rfl, h0⟩

theorem c4_split_first_witness :
    (split_first [97, DELIMITER] = none ↔ [97, DELIMITER] = ([] : List Nat)) ∧
    (∀ s rest, split_first [97, DELIMITER] = some (s, rest) →
      [97, DELIMITER] = s ++ DELIMITER :: rest ∧ DELIMITER ∉ s) :=
  c4_split_first [97, DELIMITER] ⟨[[97]], by decide, by decide⟩

/-- Claim C5: on a well-formed non-empty view, split_last drops the
trailing separator, scans backward for the previous separator (or the
start), and returns the delimiter-free last string together with the
remaining view, the original bytes being the remaining view followed by
the last string and its separator, where the remaining view is either
empty (the backward scan reached the start) or itself ends with the
previous separator — so the split point is exactly the previous separator
and the last string is the maximal delimiter-free suffix before the
trailing separator; on an empty view it returns none. -/
theorem c5_split_last (l : List Nat) (h : WF l) :
    (split_last l = none ↔ l = []) ∧
    (∀ s rest, split_last l = some (s, rest) →
      l = rest ++ s ++ [DELIMITER] ∧ DELIMITER ∉ s ∧
      (rest = [] ∨ rest.getLast? = some DELIMITER)) := by
  by_cases hne : l = []
  · subst hne
    refine ⟨by simp [split_last], ?_⟩
    intro s rest hs
    simp [split_last] at hs
  · obtain ⟨ss, s0, hvss, hs0, rfl⟩ := WF_ne_nil_decomp h hne
    have hsl := split_last_fromElems ss s0 hs0
    refine ⟨?_, ?_⟩
    · rw [hsl]
      exact ⟨fun hc => absurd hc (by simp), fun hc => absurd hc hne⟩
    · intro s rest hs
      rw [hsl] at hs
      have hse : s0 = s ∧ fromElems ss = rest := by simpa using hs
      obtain ⟨rfl, rfl⟩ := hse
      refine ⟨?_, hs0, ?_⟩
      · rw [fromElems_append]
        show fromElems ss ++ (s0 ++ DELIMITER :: fromElems []) = _
        simp [fromElems]
      · cases hss : ss with
        | nil => exact Or.inl rfl
        | cons u v =>
          refine Or.inr ?_
          obtain ⟨y, hy⟩ := @fromElems_concat_delim (u :: v) (by simp)
          rw [hy]
          simp

theorem c5_split_last_witness :
    (split_last [97, DELIMITER, 98, DELIMITER] = none ↔
      [97, DELIMITER, 98, DELIMITER] = ([] : List Nat)) ∧
    (∀ s rest, split_last [97, DELIMITER, 98, DELIMITER] = some (s, rest) →
      [97, DELIMITER, 98, DELIMITER] = rest ++ s ++ [DELIMITER] ∧
      DELIMITER ∉ s ∧
      (rest = [] ∨ rest.getLast? = some DELIMITER)) :=
  c5_split_last [97, DELIMITER, 98, DELIMITER] ⟨[[97], [98]], by decide, by decide⟩

/-- Claim C6: two well-formed views are equal exactly when their packed
byte ranges are identical, and this is equivalent to element-wise equality
of the two string sequences (the encoding is injective for delimiter-free
elements). -/
theorem c6_eq_iff (a b : List Nat) (ha : WF a) (hb : WF b) :
    a = b ↔ toListFwd a = toListFwd b := by
  constructor
  · intro hEq
    rw [hEq]
  · intro hEq
    obtain ⟨ss, hvs, rfl⟩ := ha
    obtain ⟨ts, hvt, rfl⟩ := hb
    rw [toListFwd_fromElems hvs, toListFwd_fromElems hvt] at hEq
    rw [hEq]

theorem c6_eq_iff_witness :
    ([97, DELIMITER] : List Nat) = [97, DELIMITER, 98, DELIMITER] ↔
      toListFwd [97, DELIMITER] = toListFwd [97, DELIMITER, 98, DELIMITER] :=
  c6_eq_iff [97, DELIMITER] [97, DELIMITER, 98, DELIMITER]
    ⟨[[97]], by decide, by decide⟩ ⟨[[97], [98]], by decide, by decide⟩

/-- Claim C7: after any sequence of pushes and pops starting from the
empty buffer, the number of elements produced by full forward iteration
equals the number of pushes minus the number of successful pops, and
is_empty is false exactly when that count is nonzero. -/
theorem c7_length (ops : List PPOp) (h : ∀ op ∈ ops, ValidPPOp op) :
    (toListFwd (runPP ops).1).length = (runPP ops).2.1 - (runPP ops).2.2 ∧
    (runPP ops).2.2 ≤ (runPP ops).2.1 ∧
    (is_empty (runPP ops).1 = false ↔ (toListFwd (runPP ops).1).length ≠ 0) := by
  obtain ⟨hwf, hle, hlen⟩ := PPInv_runPP ops h
  exact ⟨hlen, hle, WF_is_empty_iff hwf⟩

theorem c7_length_witness :
    (toListFwd (runPP [PPOp.push [97], PPOp.pop, PPOp.pop,
      PPOp.push [98]]).1).length =
      (runPP [PPOp.push [97], PPOp.pop, PPOp.pop, PPOp.push [98]]).2.1 -
      (runPP [PPOp.push [97], PPOp.pop, PPOp.pop, PPOp.push [98]]).2.2 ∧
    (runPP [PPOp.push [97], PPOp.pop, PPOp.pop, PPOp.push [98]]).2.2 ≤
      (runPP [PPOp.push [97], PPOp.pop, PPOp.pop, PPOp.push [98]]).2.1 ∧
    (is_empty (runPP [PPOp.push [97], PPOp.pop, PPOp.pop,
      PPOp.push [98]]).1 = false ↔
      (toListFwd (runPP [PPOp.push [97], PPOp.pop, PPOp.pop,
        PPOp.push [98]]).1).length ≠ 0) :=
  c7_length [PPOp.push [97], PPOp.pop, PPOp.pop, PPOp.push [98]]
    (by
      intro op hop
      simp only [List.mem_cons, List.not_mem_nil, or_false] at hop
      rcases hop with rfl | rfl | rfl | rfl
      · show DELIMITER ∉ [97]
        decide
      · trivial
      · trivial
      · show DELIMITER ∉ [98]
        decide)

/-- Claim C8: pop on the empty buffer returns false and leaves it empty;
pop on a well-formed non-empty buffer returns true, truncates storage to
the remaining view returned by split_last, and removes exactly the last
element; after clear, is_empty is true. -/
theorem c8_pop_clear (b : List Nat) (h : WF b) :
    pop ([] : List Nat) = ([], false) ∧
    (b ≠ [] → (pop b).2 = true ∧
      toListFwd (pop b).1 = (toListFwd b).dropLast) ∧
    (∀ s rest, split_last b = some (s, rest) → (pop b).1 = rest) ∧
    is_empty (clear b) = true := by
  refine ⟨rfl, fun hne => pop_of_wf_ne_nil h hne, ?_, rfl⟩
  intro s rest hs
  have hne : b ≠ [] := by
    intro hnil
    subst hnil
    simp [split_last] at hs
  obtain ⟨ss, s0, hvss, hs0, rfl⟩ := WF_ne_nil_decomp h hne
  rw [split_last_fromElems ss s0 hs0] at hs
  have hse : s0 = s ∧ fromElems ss = rest := by simpa using hs
  obtain ⟨rfl, rfl⟩ := hse
  rw [pop_fromElems_concat ss s0 hs0]

theorem c8_pop_clear_witness :
    pop ([] : List Nat) = ([], false) ∧
    ([97, DELIMITER] ≠ ([] : List Nat) → (pop [97, DELIMITER]).2 = true ∧
      toListFwd (pop [97, DELIMITER]).1 =
        (toListFwd [97, DELIMITER]).dropLast) ∧
    (∀ s rest, split_last [97, DELIMITER] = some (s, rest) →
      (pop [97, DELIMITER]).1 = rest) ∧
    is_empty (clear [97, DELIMITER]) = true :=
  c8_pop_clear [97, DELIMITER] ⟨[[97]], by decide, by decide⟩

/-- Claim C9: splitting preserves well-formedness: on a well-formed view,
the remaining view returned by split_first and the remaining view returned
by split_last are themselves well-formed. -/
theorem c9_split_preserves_wf (l : List Nat) (h : WF l) :
    (∀ s rest, split_first l = some (s, rest) → WF rest) ∧
    (∀ s rest, split_last l = some (s, rest) → WF rest) := by
  constructor
  · intro s rest hs
    obtain ⟨ss, hv, rfl⟩ := h
    cases ss with
    | nil => simp [fromElems, split_first, position] at hs
    | cons s0 t =>
      rw [split_first_fromElems t (hv s0 (List.mem_cons_self s0 t))] at hs
      have hse : s0 = s ∧ fromElems t = rest := by simpa using hs
      obtain ⟨rfl, rfl⟩ := hse
      exact ⟨t, fun u hu => hv u (List.mem_cons_of_mem s0 hu), rfl⟩
  · intro s rest hs
    have hne : l ≠ [] := by
      intro hnil
      subst hnil
      simp [split_last] at hs
    obtain ⟨ss, s0, hvss, hs0, rfl⟩ := WF_ne_nil_decomp h hne
    rw [split_last_fromElems ss s0 hs0] at hs
    have hse : s0 = s ∧ fromElems ss = rest := by simpa using hs
    obtain ⟨rfl, rfl⟩ := hse
    exact ⟨ss, hvss, rfl⟩

theorem c9_split_preserves_wf_witness :
    (∀ s rest, split_first [97, DELIMITER, 98, DELIMITER] = some (s, rest) →
      WF rest) ∧
    (∀ s rest, split_last [97, DELIMITER, 98, DELIMITER] = some (s, rest) →
      WF rest) :=
  c9_split_preserves_wf [97, DELIMITER, 98, DELIMITER]
    ⟨[[97], [98]], by decide, by decide⟩

/-- Claim C10: the empty string is a valid element: pushing it appends
exactly one byte (the separator) and one element, after which the buffer
is not empty; pushing n empty strings yields a list of exactly n
empty-string elements. -/
theorem c10_empty_string (b : List Nat) (h : WF b) :
    push b [] = b ++ [DELIMITER] ∧
    toListFwd (push b []) = toListFwd b ++ [[]] ∧
    is_empty (push b []) = false ∧
    (∀ n : Nat, toListFwd ((List.replicate n ([] : List Nat)).foldl push []) =
      List.replicate n []) := by
  refine ⟨by simp [push], toListFwd_push h (by simp), ?_, ?_⟩
  · rw [is_empty_eq_false_iff]
    simp [push]
  · intro n
    have hv : ValidElems (List.replicate n ([] : List Nat)) := by
      intro u hu
      rw [List.eq_of_mem_replicate hu]
      simp
    rw [foldl_push_eq, List.nil_append, toListFwd_fromElems hv]

theorem c10_empty_string_witness :
    push [97, DELIMITER] [] = [97, DELIMITER] ++ [DELIMITER] ∧
    toListFwd (push [97, DELIMITER] []) = toListFwd [97, DELIMITER] ++ [[]] ∧
    is_empty (push [97, DELIMITER] []) = false ∧
    (∀ n : Nat, toListFwd ((List.replicate n ([] : List Nat)).foldl push []) =
      List.replicate n []) :=
  c10_empty_string [97, DELIMITER] ⟨[[97]], by decide, by decide⟩

end StrListSpec
